import Mathlib

/-! Verification of the skill-to-langchain converter (`src/converter.py`).

Text is modelled as `List Char`.  Python's regex-driven text processing is
embedded as explicit character scanners; each definition notes the source
lines it translates.  All definitions are executable. -/

namespace SkillConv

/-- Python whitespace, as used by `str.strip()` and `str.split()`:
space, tab, LF, CR, vertical tab, form feed. -/
def pyIsSpace (c : Char) : Bool :=
  c == ' ' || c == '\t' || c == '\n' || c == '\r' || c == '\x0b' || c == '\x0c'

/-- Python `str.strip()`: drop whitespace from both ends. -/
def pyStrip (s : List Char) : List Char :=
  ((s.dropWhile pyIsSpace).reverse.dropWhile pyIsSpace).reverse

/-- `startsWith pat s` is true when `pat` is a prefix of `s`. -/
def startsWith : List Char → List Char → Bool
  | [], _ => true
  | _ :: _, [] => false
  | p :: ps, c :: cs => p == c && startsWith ps cs

/-- Leftmost-occurrence split: `splitOnFirst pat s = some (before, after)`
when `pat` occurs in `s`, where `before` is everything left of the first
occurrence and `after` everything right of it.  This is the semantics of a
leftmost regex match at a literal pattern (`re.search` / `str.split(p, 1)` /
`p in s`). -/
def splitOnFirst (pat : List Char) : List Char → Option (List Char × List Char)
  | [] => if pat.isEmpty then some ([], []) else none
  | c :: rest =>
    if startsWith pat (c :: rest) then some ([], (c :: rest).drop pat.length)
    else
      match splitOnFirst pat rest with
      | some (b, a) => some (c :: b, a)
      | none => none

/-- Python `pat in s` (substring containment). -/
def containsSub (pat s : List Char) : Bool :=
  (splitOnFirst pat s).isSome

/-- Python `str.split(sep)` for a single-character separator: keeps empty
pieces, always returns at least one piece. -/
def splitChar (sep : Char) : List Char → List (List Char)
  | [] => [[]]
  | c :: rest =>
    if c == sep then [] :: splitChar sep rest
    else
      match splitChar sep rest with
      | [] => [[c]]
      | h :: t => (c :: h) :: t

/-- Helper for `pySplitWs`; `cur` is the current token, reversed. -/
def pySplitWsAux (cur : List Char) : List Char → List (List Char)
  | [] => if cur.isEmpty then [] else [cur.reverse]
  | c :: rest =>
    if pyIsSpace c then
      if cur.isEmpty then pySplitWsAux [] rest
      else cur.reverse :: pySplitWsAux [] rest
    else pySplitWsAux (c :: cur) rest

/-- Python `str.split()` with no argument: split on runs of whitespace,
discarding empty tokens. -/
def pySplitWs (s : List Char) : List (List Char) :=
  pySplitWsAux [] s

/-- Python `sep.join(pieces)`. -/
def joinSep (sep : List Char) : List (List Char) → List Char
  | [] => []
  | [x] => x
  | x :: y :: rest => x ++ sep ++ joinSep sep (y :: rest)

/-- Python `str.lower()` (ASCII case fold suffices for this repository). -/
def pyLower (s : List Char) : List Char :=
  s.map Char.toLower

/-! ## Document Parser: metadata (converter.py lines 14-39)

`parse_skill_metadata` runs
`re.search(r'^---\n(.*?)\n---', content, re.DOTALL | re.MULTILINE)`:
because of `re.MULTILINE` the opening `---` line may start at the beginning
of any line, not only the first; the match is leftmost, and the group is
the shortest one (non-greedy) at that position. -/

/-- The opener `---\n`: a line consisting exactly of `---`. -/
def fmOpen : List Char := ['-', '-', '-', '\n']

/-- The closer pattern `\n---`. -/
def fmClose : List Char := ['\n', '-', '-', '-']

/-- Scanner for the frontmatter regex.  `bol` records whether the current
position is at the beginning of a line (`^` with `re.MULTILINE`).  At a
line start carrying `---\n`, the group runs to the first later `\n---`;
if no closer exists the engine moves on to the next position. -/
def findFrontmatterAux (bol : Bool) : List Char → Option (List Char)
  | [] => none
  | c :: rest =>
    if bol && startsWith fmOpen (c :: rest) then
      match splitOnFirst fmClose (rest.drop 3) with
      | some (grp, _) => some grp
      | none => findFrontmatterAux (c == '\n') rest
    else findFrontmatterAux (c == '\n') rest

/-- One metadata line (converter.py lines 35-37): if the line contains a
`:`, split at the first one and strip both sides; otherwise the line is
ignored. -/
def parseMetaLine (line : List Char) : Option (List Char × List Char) :=
  match splitOnFirst [':'] line with
  | some (k, v) => some (pyStrip k, pyStrip v)
  | none => none

/-- Python dict assignment `d[k] = v`: update in place if the key exists,
else append. -/
def dictInsert (k v : List Char) :
    List (List Char × List Char) → List (List Char × List Char)
  | [] => [(k, v)]
  | (k', v') :: rest =>
    if k' = k then (k', v) :: rest else (k', v') :: dictInsert k v rest

/-- Python `d.get(k, default)`. -/
def dictGet (k dflt : List Char) : List (List Char × List Char) → List Char
  | [] => dflt
  | (k', v) :: rest => if k' = k then v else dictGet k dflt rest

/-- `parse_skill_metadata` (converter.py lines 14-39), on document text. -/
def parse_skill_metadata (content : List Char) : List (List Char × List Char) :=
  match findFrontmatterAux true content with
  | none => []
  | some grp =>
    (splitChar '\n' grp).foldl
      (fun m line =>
        match parseMetaLine line with
        | some (k, v) => dictInsert k v m
        | none => m) []

/-- `noFmOpenAux bol s` is true when no line start inside `s` carries the
opener `---\n` (taking `bol` as the line-start status of the first
character). -/
def noFmOpenAux (bol : Bool) : List Char → Bool
  | [] => true
  | c :: rest =>
    !(bol && startsWith fmOpen (c :: rest)) && noFmOpenAux (c == '\n') rest

/-! ### Lemmas about the frontmatter scanner -/

theorem startsWith_append_of_le (pat x y : List Char)
    (h : pat.length ≤ x.length) :
    startsWith pat (x ++ y) = startsWith pat x := by
  induction pat generalizing x with
  | nil => cases x <;> rfl
  | cons p ps ih =>
    cases x with
    | nil => simp at h
    | cons c cs =>
      simp only [List.cons_append, startsWith, List.append_eq]
      rw [ih cs (by simpa using h)]

theorem noFmOpen_findFrontmatter (s : List Char) :
    ∀ bol : Bool, noFmOpenAux bol s = true → findFrontmatterAux bol s = none := by
  induction s with
  | nil => intro bol _; rfl
  | cons c rest ih =>
    intro bol h
    simp only [noFmOpenAux, Bool.and_eq_true, Bool.not_eq_true'] at h
    obtain ⟨h1, h2⟩ := h
    simp only [findFrontmatterAux, h1, Bool.false_eq_true, if_false]
    exact ih _ h2

theorem findFrontmatter_skip (s : List Char) :
    ∀ (pre : List Char) (bol : Bool),
      noFmOpenAux bol pre = true →
      (pre.getLast? = some '\n' ∨ (pre = [] ∧ bol = true)) →
      findFrontmatterAux bol (pre ++ s) = findFrontmatterAux true s := by
  intro pre
  induction pre with
  | nil =>
    intro bol _ hL
    rcases hL with hL | ⟨_, hb⟩
    · simp at hL
    · rw [hb]; rfl
  | cons c pre' ih =>
    intro bol h hL
    have hL' : (c :: pre').getLast? = some '\n' := by
      rcases hL with hL | ⟨hc, _⟩
      · exact hL
      · exact absurd hc (by simp)
    simp only [noFmOpenAux, Bool.and_eq_true, Bool.not_eq_true'] at h
    obtain ⟨h1, h2⟩ := h
    have hcond : (bol && startsWith fmOpen (c :: pre' ++ s)) = false := by
      cases hb : bol with
      | false => rfl
      | true =>
        rw [hb] at h1
        simp only [Bool.true_and] at h1 ⊢
        match pre', hL', h1 with
        | [], hL', h1 =>
          have hc : c = '\n' := by simpa using hL'
          subst hc; rfl
        | [c2], hL', h1 =>
          have hc2 : c2 = '\n' := by simpa using hL'
          subst hc2
          simp [startsWith, fmOpen]
        | [c2, c3], hL', h1 =>
          have hc3 : c3 = '\n' := by simpa using hL'
          subst hc3
          simp [startsWith, fmOpen]
        | c2 :: c3 :: c4 :: rest', hL', h1 =>
          have : startsWith fmOpen (c :: c2 :: c3 :: c4 :: rest' ++ s)
              = startsWith fmOpen (c :: c2 :: c3 :: c4 :: rest') := by
            have := startsWith_append_of_le fmOpen
              (c :: c2 :: c3 :: c4 :: rest') s (by simp [fmOpen])
            simpa using this
          rw [this, h1]
    rw [List.cons_append] at hcond ⊢
    simp only [findFrontmatterAux, hcond, Bool.false_eq_true, if_false]
    apply ih
    · exact h2
    · cases pre' with
      | nil =>
        right
        refine ⟨rfl, ?_⟩
        have hc : c = '\n' := by simpa using hL'
        simp [hc]
      | cons d pre'' =>
        left
        rw [List.getLast?_cons_cons] at hL'
        exact hL'

/-! ### Claim C2 -/

/-- C2 counterexample: the claim says that a document whose first `---`
line is preceded by other text yields an empty mapping.  Because the
source passes `re.MULTILINE`, the block may start at any line start, so
`"intro\n---\nname: x\n---"` yields a non-empty mapping. -/
theorem C2_counterexample :
    parse_skill_metadata ("intro\n---\nname: x\n---".toList)
        = [("name".toList, "x".toList)] ∧
      parse_skill_metadata ("intro\n---\nname: x\n---".toList) ≠ [] := by
  constructor
  · decide
  · decide

/-- C2 (amended): `parse_skill_metadata` extracts key/value pairs from the
first `---`-delimited block whose opening `---` line starts at the
beginning of **some** line (not necessarily the first line of the
document): prepending any opener-free text ending in a newline does not
change the result, and a document with no line-initial `---` opener at all
yields the empty mapping — and the parser never fails (it is a total
function). -/
theorem C2_frontmatter_line_start :
    (∀ pre s : List Char,
        pre.getLast? = some '\n' →
        noFmOpenAux true pre = true →
        parse_skill_metadata (pre ++ s) = parse_skill_metadata s)
    ∧ (∀ s : List Char, noFmOpenAux true s = true →
        parse_skill_metadata s = []) := by
  constructor
  · intro pre s hL hno
    unfold parse_skill_metadata
    rw [findFrontmatter_skip s pre true hno (Or.inl hL)]
  · intro s hno
    unfold parse_skill_metadata
    rw [noFmOpen_findFrontmatter s true hno]

/-- Witness for C2's amended theorem at concrete inputs. -/
theorem C2_frontmatter_line_start_witness :
    parse_skill_metadata ("intro\n".toList ++ "---\nname: x\n---".toList)
        = parse_skill_metadata ("---\nname: x\n---".toList)
    ∧ parse_skill_metadata ("no block here\n".toList) = [] := by
  exact ⟨C2_frontmatter_line_start.1 ("intro\n".toList)
      ("---\nname: x\n---".toList) (by decide) (by decide),
    C2_frontmatter_line_start.2 ("no block here\n".toList) (by decide)⟩

/-! ### Claim C6 -/

theorem splitOnFirst_single_not_mem {sep : Char} :
    ∀ line : List Char, sep ∉ line → splitOnFirst [sep] line = none := by
  intro line
  induction line with
  | nil => intro _; rfl
  | cons c rest ih =>
    intro h
    have hc : sep ≠ c := fun he => h (he ▸ List.mem_cons_self c rest)
    have hrest : sep ∉ rest := fun hm => h (List.mem_cons_of_mem c hm)
    simp only [splitOnFirst, startsWith]
    have : (sep == c) = false := by simp [hc]
    simp [this, ih hrest]

theorem splitOnFirst_single_append {sep : Char} :
    ∀ k v : List Char, sep ∉ k →
      splitOnFirst [sep] (k ++ sep :: v) = some (k, v) := by
  intro k
  induction k with
  | nil =>
    intro v _
    simp [splitOnFirst, startsWith]
  | cons c k' ih =>
    intro v h
    have hc : sep ≠ c := fun he => h (he ▸ List.mem_cons_self c k')
    have hk' : sep ∉ k' := fun hm => h (List.mem_cons_of_mem c hm)
    simp only [List.cons_append, splitOnFirst, startsWith]
    have : (sep == c) = false := by simp [hc]
    simp [this, ih v hk']

/-- C6: a metadata line containing a colon is split at the **first** colon
only, both sides are stripped of surrounding whitespace, and every later
colon stays in the value verbatim; a line with no colon is ignored.  The
concrete document from the spec maps `description` to
`Get weather (https://x)`. -/
theorem C6_first_colon_split :
    (∀ k v : List Char, ':' ∉ k →
        parseMetaLine (k ++ ':' :: v) = some (pyStrip k, pyStrip v))
    ∧ (∀ line : List Char, ':' ∉ line → parseMetaLine line = none)
    ∧ parse_skill_metadata ("---\ndescription: Get weather (https://x)\n---".toList)
        = [("description".toList, "Get weather (https://x)".toList)] := by
  refine ⟨?_, ?_, by decide⟩
  · intro k v hk
    unfold parseMetaLine
    rw [splitOnFirst_single_append k v hk]
  · intro line hline
    unfold parseMetaLine
    rw [splitOnFirst_single_not_mem line hline]

/-- Witness for C6 at concrete inputs: the spec's example line, and a
colon-free line. -/
theorem C6_first_colon_split_witness :
    parseMetaLine ("description".toList ++ ':' :: " Get weather (https://x)".toList)
        = some ("description".toList, "Get weather (https://x)".toList)
    ∧ parseMetaLine ("no colon here".toList) = none := by
  constructor
  · rw [C6_first_colon_split.1 ("description".toList)
      (" Get weather (https://x)".toList) (by decide)]
    decide
  · exact C6_first_colon_split.2.1 ("no colon here".toList) (by decide)

/-! ## Parameter Inferencer (converter.py lines 116 and 297-299)

`generate_workflow_tools` runs `re.findall(r'<(\w+)>|\{(\w+)\}', command)`
and flattens the group tuples, so the result is one name per match, in
scan order, with no deduplication.  The scan below is a state machine
equivalent of the regex engine's behaviour: the engine tries the pattern
at each position, left to right, non-overlapping.  The machine's pending
state holds the opener kind and the word characters read since the opener;
since word characters can never begin a match, abandoning a failed partial
match at the failing character is exactly the engine's restart at
opener + 1 followed by skipping the word characters. -/

/-- Placeholder surface syntax: `{name}` or `<name>`. -/
inductive PSyn
  | brace
  | angle
deriving DecidableEq, Repr

/-- The closing character of each syntax. -/
def closerOf : PSyn → Char
  | .brace => '}'
  | .angle => '>'

/-- The opening character of each syntax. -/
def openerOf : PSyn → Char
  | .brace => '{'
  | .angle => '<'

/-- Python regex `\w` (ASCII part; the repository's commands are ASCII). -/
def isWordChar (c : Char) : Bool :=
  c.isAlphanum || c == '_'

/-- Scanner for `re.findall(r'<(\w+)>|\{(\w+)\}', s)` flattened to the
matched names, in match order.  The state holds the pending opener and the
accumulated name characters (reversed). -/
def phScan : Option (PSyn × List Char) → List Char → List (List Char)
  | _, [] => []
  | st, c :: rest =>
    if isWordChar c then
      match st with
      | some (t, acc) => phScan (some (t, c :: acc)) rest
      | none => phScan none rest
    else if c == '<' then phScan (some (.angle, [])) rest
    else if c == '{' then phScan (some (.brace, [])) rest
    else
      match st with
      | some (t, acc) =>
        if c == closerOf t && !acc.isEmpty then acc.reverse :: phScan none rest
        else phScan none rest
      | none => phScan none rest

/-- Parameter extraction of `generate_workflow_tools`
(converter.py lines 297-299): every placeholder occurrence, both
syntaxes, flattened in match order, duplicates kept. -/
def workflowParams (command : List Char) : List (List Char) :=
  phScan none command

/-- Scanner for the brace-only regex `re.findall(r'\{(\w+)\}', s)` of
`generate_langchain_tool` (converter.py line 116). -/
def braceScan : Option (List Char) → List Char → List (List Char)
  | _, [] => []
  | st, c :: rest =>
    if isWordChar c then
      match st with
      | some acc => braceScan (some (c :: acc)) rest
      | none => braceScan none rest
    else if c == '{' then braceScan (some []) rest
    else
      match st with
      | some acc =>
        if c == '}' && !acc.isEmpty then acc.reverse :: braceScan none rest
        else braceScan none rest
      | none => braceScan none rest

/-- Parameter extraction of `generate_langchain_tool`
(converter.py line 116): brace placeholders only. -/
def langchainParams (command : List Char) : List (List Char) :=
  braceScan none command

/-! ### Command templates

To state universal properties about placeholder extraction we model a
command as a sequence of literal spans and placeholder occurrences, and
render it to the raw string the converter actually sees. -/

/-- One span of a command template: literal text, or a placeholder
occurrence written in one of the two syntaxes. -/
inductive Seg
  | lit (s : List Char)
  | ph (syn : PSyn) (name : List Char)
deriving DecidableEq, Repr

/-- Render one span to raw text. -/
def renderSeg : Seg → List Char
  | .lit s => s
  | .ph syn name => openerOf syn :: (name ++ [closerOf syn])

/-- Render a template to the raw command string. -/
def renderT : List Seg → List Char
  | [] => []
  | sg :: t => renderSeg sg ++ renderT t

/-- The placeholder names of a template, one entry per occurrence, in
order. -/
def phNames : List Seg → List (List Char)
  | [] => []
  | .lit _ :: t => phNames t
  | .ph _ n :: t => n :: phNames t

/-- Rewrite every placeholder of a template to the given syntax, leaving
names and literals unchanged. -/
def setSyn (σ : PSyn) : List Seg → List Seg
  | [] => []
  | .lit s :: t => .lit s :: setSyn σ t
  | .ph _ n :: t => .ph σ n :: setSyn σ t

/-- A literal span is well formed when it contains neither opener
character. -/
def litOk (s : List Char) : Bool :=
  s.all (fun c => !(c == '<' || c == '{'))

/-- A placeholder name is well formed when it is a non-empty word
(`\w+`). -/
def nameOk (n : List Char) : Bool :=
  !n.isEmpty && n.all isWordChar

/-- Well-formedness of one span. -/
def wfSeg : Seg → Bool
  | .lit s => litOk s
  | .ph _ n => nameOk n

/-- Well-formedness of a template. -/
def wfTemplate (t : List Seg) : Bool :=
  t.all wfSeg

/-! ### Lemmas about the placeholder scanner -/

theorem isWordChar_closerOf (σ : PSyn) : isWordChar (closerOf σ) = false := by
  cases σ <;> decide

theorem isWordChar_openerOf (σ : PSyn) : isWordChar (openerOf σ) = false := by
  cases σ <;> decide

theorem phScan_skipLit (s : List Char) (hs : litOk s = true) (r : List Char) :
    phScan none (s ++ r) = phScan none r := by
  induction s with
  | nil => rfl
  | cons c s' ih =>
    simp only [litOk, List.all_cons, Bool.and_eq_true] at hs
    obtain ⟨hc, hs'⟩ := hs
    have hlt : (c == '<') = false := by
      cases h : c == '<' <;> simp_all
    have hbr : (c == '{') = false := by
      cases h : c == '{' <;> simp_all
    have ih' := ih (by simpa [litOk] using hs')
    simp only [List.cons_append, phScan, hlt, hbr, Bool.false_eq_true, if_false]
    by_cases hw : isWordChar c = true
    · simp [hw, ih']
    · simp [Bool.not_eq_true] at hw
      simp [hw, ih']

theorem phScan_consume (σ : PSyn) (n : List Char) (r : List Char) :
    ∀ acc : List Char, n.all isWordChar = true → (acc ≠ [] ∨ n ≠ []) →
      phScan (some (σ, acc)) (n ++ closerOf σ :: r)
        = (acc.reverse ++ n) :: phScan none r := by
  induction n with
  | nil =>
    intro acc _ hne
    have hacc : acc ≠ [] := by
      rcases hne with h | h
      · exact h
      · exact absurd rfl h
    simp only [List.nil_append, phScan, isWordChar_closerOf, Bool.false_eq_true,
      if_false]
    have hop : (closerOf σ == '<') = false := by cases σ <;> decide
    have hbr : (closerOf σ == '{') = false := by cases σ <;> decide
    simp [hop, hbr, hacc]
  | cons d n' ih =>
    intro acc hall hne
    simp only [List.all_cons, Bool.and_eq_true] at hall
    obtain ⟨hd, hn'⟩ := hall
    simp only [List.cons_append, phScan, hd, if_true, List.append_eq]
    rw [ih (d :: acc) hn' (Or.inl (by simp))]
    simp

theorem phScan_render (t : List Seg) (h : wfTemplate t = true) :
    phScan none (renderT t) = phNames t := by
  induction t with
  | nil => rfl
  | cons sg t' ih =>
    simp only [wfTemplate, List.all_cons, Bool.and_eq_true] at h
    obtain ⟨hsg, ht'⟩ := h
    have ih' := ih (by simpa [wfTemplate] using ht')
    cases sg with
    | lit s =>
      simp only [renderT, renderSeg, phNames]
      rw [phScan_skipLit s (by simpa [wfSeg] using hsg), ih']
    | ph σ n =>
      simp only [wfSeg, nameOk, Bool.and_eq_true, Bool.not_eq_true'] at hsg
      obtain ⟨hne, hall⟩ := hsg
      have hne' : n ≠ [] := by
        intro h0
        rw [h0] at hne
        simp at hne
      have harr : renderT (.ph σ n :: t')
          = openerOf σ :: (n ++ closerOf σ :: renderT t') := by
        simp [renderT, renderSeg]
      rw [harr]
      have hcons := phScan_consume σ n (renderT t') [] hall (Or.inr hne')
      simp only [List.reverse_nil, List.nil_append] at hcons
      show phScan none (openerOf σ :: (n ++ closerOf σ :: renderT t'))
          = n :: phNames t'
      cases σ with
      | angle =>
        have h1 : isWordChar '<' = false := by decide
        simp only [openerOf, closerOf] at hcons ⊢
        simp only [phScan, h1, Bool.false_eq_true, if_false, beq_self_eq_true,
          if_true]
        rw [hcons, ih']
      | brace =>
        have h1 : isWordChar '{' = false := by decide
        have h2 : ('{' == '<') = false := by decide
        simp only [openerOf, closerOf] at hcons ⊢
        simp only [phScan, h1, h2, Bool.false_eq_true, if_false,
          beq_self_eq_true, if_true]
        rw [hcons, ih']

/-! ### Lemmas about `setSyn` -/

theorem phNames_setSyn (σ : PSyn) (t : List Seg) :
    phNames (setSyn σ t) = phNames t := by
  induction t with
  | nil => rfl
  | cons sg t' ih => cases sg <;> simp [setSyn, phNames, ih]

theorem wfTemplate_setSyn (σ : PSyn) (t : List Seg) :
    wfTemplate (setSyn σ t) = wfTemplate t := by
  induction t with
  | nil => rfl
  | cons sg t' ih =>
    have ih' : (setSyn σ t').all wfSeg = t'.all wfSeg := ih
    cases sg <;> simp [setSyn, wfTemplate, wfSeg, ih']

/-! ### Lemmas about the brace-only scanner of converter.py line 116 -/

theorem braceScan_skipLit (s : List Char) (hs : litOk s = true)
    (r : List Char) :
    braceScan none (s ++ r) = braceScan none r := by
  induction s with
  | nil => rfl
  | cons c s' ih =>
    simp only [litOk, List.all_cons, Bool.and_eq_true] at hs
    obtain ⟨hc, hs'⟩ := hs
    have hbr : (c == '{') = false := by
      cases h : c == '{' <;> simp_all
    have ih' := ih (by simpa [litOk] using hs')
    simp only [List.cons_append, braceScan, hbr, Bool.false_eq_true, if_false]
    by_cases hw : isWordChar c = true
    · simp [hw, ih']
    · simp [Bool.not_eq_true] at hw
      simp [hw, ih']

theorem braceScan_consume (n r : List Char) :
    ∀ acc : List Char, n.all isWordChar = true → (acc ≠ [] ∨ n ≠ []) →
      braceScan (some acc) (n ++ '}' :: r)
        = (acc.reverse ++ n) :: braceScan none r := by
  induction n with
  | nil =>
    intro acc _ hne
    have hacc : acc ≠ [] := by
      rcases hne with h | h
      · exact h
      · exact absurd rfl h
    have hw : isWordChar '}' = false := by decide
    have hbr : ('}' == '{') = false := by decide
    simp only [List.nil_append, braceScan, hw, Bool.false_eq_true, if_false,
      hbr]
    simp [hacc]
  | cons d n' ih =>
    intro acc hall hne
    simp only [List.all_cons, Bool.and_eq_true] at hall
    obtain ⟨hd, hn'⟩ := hall
    simp only [List.cons_append, braceScan, hd, if_true, List.append_eq]
    rw [ih (d :: acc) hn' (Or.inl (by simp))]
    simp

theorem braceScan_render (t : List Seg) (h : wfTemplate t = true) :
    braceScan none (renderT (setSyn PSyn.brace t)) = phNames t := by
  induction t with
  | nil => rfl
  | cons sg t' ih =>
    simp only [wfTemplate, List.all_cons, Bool.and_eq_true] at h
    obtain ⟨hsg, ht'⟩ := h
    have ih' := ih (by simpa [wfTemplate] using ht')
    cases sg with
    | lit s =>
      simp only [setSyn, renderT, renderSeg, phNames]
      rw [braceScan_skipLit s (by simpa [wfSeg] using hsg), ih']
    | ph σ n =>
      simp only [wfSeg, nameOk, Bool.and_eq_true, Bool.not_eq_true'] at hsg
      obtain ⟨hne, hall⟩ := hsg
      have hne' : n ≠ [] := by
        intro h0
        rw [h0] at hne
        simp at hne
      have harr : renderT (setSyn PSyn.brace (.ph σ n :: t'))
          = '{' :: (n ++ '}' :: renderT (setSyn PSyn.brace t')) := by
        simp [setSyn, renderT, renderSeg, openerOf, closerOf,
          List.append_assoc, List.cons_append]
      have hcons := braceScan_consume n (renderT (setSyn PSyn.brace t')) []
        hall (Or.inr hne')
      simp only [List.reverse_nil, List.nil_append] at hcons
      have hw : isWordChar '{' = false := by decide
      simp only [phNames]
      rw [harr]
      simp only [braceScan, hw, Bool.false_eq_true, if_false,
        beq_self_eq_true, if_true]
      rw [hcons, ih']

theorem braceScan_no_open (s : List Char) (hs : '{' ∉ s) :
    braceScan none s = [] := by
  induction s with
  | nil => rfl
  | cons c rest ih =>
    have hc : ¬ c = '{' := fun he => hs (he ▸ List.mem_cons_self c rest)
    have hbr : (c == '{') = false := by simp [hc]
    have ih' := ih (fun hm => hs (List.mem_cons_of_mem c hm))
    simp only [braceScan, hbr, Bool.false_eq_true, if_false]
    by_cases hw : isWordChar c = true
    · simp [hw, ih']
    · simp [Bool.not_eq_true] at hw
      simp [hw, ih']

/-! ### Claim C5 -/

/-- C5 counterexample: the claim's cited extraction sites include the
brace-only `re.findall(r'\x7b(\w+)\x7d', ...)` of
`generate_langchain_tool` (converter.py line 116), where the pair
`a/{x}/{y}` / `a/<x>/<y>` — two commands differing only in placeholder
syntax — yields `[x, y]` versus `[]`, not the identical ordered list the
claim requires. -/
theorem C5_counterexample :
    langchainParams ("a/\x7bx\x7d/\x7by\x7d".toList)
        = ["x".toList, "y".toList]
      ∧ langchainParams ("a/<x>/<y>".toList) = []
      ∧ langchainParams ("a/\x7bx\x7d/\x7by\x7d".toList)
          ≠ langchainParams ("a/<x>/<y>".toList) := by
  refine ⟨by decide, by decide, by decide⟩

/-- C5 (amended): the workflow extractor (converter.py lines 297-299) is
syntax-invariant — both renders of a well-formed template yield the
template's placeholder names in first-occurrence order, and `a/{x}/{y}`
and `a/<x>/<y>` both give exactly `[x, y]` there; the extractor of
`generate_langchain_tool` (line 116) recognizes only the brace syntax —
a brace-rendered template also yields its names in order, but any
command containing no `{` (such as `a/<x>/<y>`) yields the empty
list. -/
theorem C5_syntax_invariance_by_extractor :
    (∀ t : List Seg, wfTemplate t = true →
        workflowParams (renderT (setSyn PSyn.brace t))
            = workflowParams (renderT (setSyn PSyn.angle t))
          ∧ workflowParams (renderT (setSyn PSyn.brace t)) = phNames t)
    ∧ (∀ t : List Seg, wfTemplate t = true →
        langchainParams (renderT (setSyn PSyn.brace t)) = phNames t)
    ∧ (∀ s : List Char, '{' ∉ s → langchainParams s = [])
    ∧ workflowParams ("a/\x7bx\x7d/\x7by\x7d".toList)
        = ["x".toList, "y".toList]
    ∧ workflowParams ("a/<x>/<y>".toList) = ["x".toList, "y".toList] := by
  refine ⟨?_, ?_, ?_, by decide, by decide⟩
  · intro t ht
    have hb : workflowParams (renderT (setSyn PSyn.brace t)) = phNames t := by
      unfold workflowParams
      rw [phScan_render _ (by rw [wfTemplate_setSyn]; exact ht),
        phNames_setSyn]
    have ha : workflowParams (renderT (setSyn PSyn.angle t)) = phNames t := by
      unfold workflowParams
      rw [phScan_render _ (by rw [wfTemplate_setSyn]; exact ht),
        phNames_setSyn]
    exact ⟨hb.trans ha.symm, hb⟩
  · intro t ht
    unfold langchainParams
    exact braceScan_render t ht
  · intro s hs
    unfold langchainParams
    exact braceScan_no_open s hs

/-- Witness for C5's amended theorem at the spec's concrete template
`a/{x}/{y}` and at the angle-rendered command. -/
theorem C5_syntax_invariance_by_extractor_witness :
    workflowParams (renderT (setSyn PSyn.brace
        [Seg.lit "a/".toList, Seg.ph PSyn.brace "x".toList,
          Seg.lit "/".toList, Seg.ph PSyn.brace "y".toList]))
      = workflowParams (renderT (setSyn PSyn.angle
        [Seg.lit "a/".toList, Seg.ph PSyn.brace "x".toList,
          Seg.lit "/".toList, Seg.ph PSyn.brace "y".toList]))
    ∧ langchainParams (renderT (setSyn PSyn.brace
        [Seg.lit "a/".toList, Seg.ph PSyn.brace "x".toList,
          Seg.lit "/".toList, Seg.ph PSyn.brace "y".toList]))
      = phNames
        [Seg.lit "a/".toList, Seg.ph PSyn.brace "x".toList,
          Seg.lit "/".toList, Seg.ph PSyn.brace "y".toList]
    ∧ langchainParams ("a/<x>/<y>".toList) = [] := by
  exact ⟨(C5_syntax_invariance_by_extractor.1
      [Seg.lit "a/".toList, Seg.ph PSyn.brace "x".toList,
        Seg.lit "/".toList, Seg.ph PSyn.brace "y".toList] (by decide)).1,
    C5_syntax_invariance_by_extractor.2.1
      [Seg.lit "a/".toList, Seg.ph PSyn.brace "x".toList,
        Seg.lit "/".toList, Seg.ph PSyn.brace "y".toList] (by decide),
    C5_syntax_invariance_by_extractor.2.2.1
      ("a/<x>/<y>".toList) (by decide)⟩

/-! ### Claim C3 -/

/-- C3 counterexample: the claim says each distinct placeholder name
appears exactly once in the extracted list.  The source flattens
`re.findall` matches without deduplication, so the command
`run {x} {x}` yields the name `x` twice (and the list is not
duplicate-free). -/
theorem C3_counterexample :
    workflowParams ("run \x7bx\x7d \x7bx\x7d".toList)
        = ["x".toList, "x".toList]
      ∧ ¬ List.Nodup (workflowParams ("run \x7bx\x7d \x7bx\x7d".toList)) := by
  constructor
  · decide
  · decide

/-- C3 (amended): the ordered list of placeholder names returned by
parameter extraction contains one entry per placeholder **occurrence**
(brace or angle form), in order of occurrence; duplicate occurrences of
the same name are **not** collapsed, so the generated wrapper signature
can list the same parameter name more than once. -/
theorem C3_params_every_occurrence :
    ∀ t : List Seg, wfTemplate t = true →
      workflowParams (renderT t) = phNames t := by
  intro t ht
  exact phScan_render t ht

/-- Witness for C3's amended theorem: a mixed-syntax template with a
repeated name yields that name twice. -/
theorem C3_params_every_occurrence_witness :
    workflowParams (renderT
        [Seg.ph PSyn.brace "x".toList, Seg.lit " ".toList,
          Seg.ph PSyn.angle "x".toList])
      = ["x".toList, "x".toList] := by
  exact C3_params_every_occurrence
    [Seg.ph PSyn.brace "x".toList, Seg.lit " ".toList,
      Seg.ph PSyn.angle "x".toList] (by decide)

/-! ## Tool Identity Resolver (converter.py lines 222-274) -/

/-- A resolved tool: the dict `{'name': ..., 'command': ..., 'description': ...}`
appended by `extract_workflow_tools`. -/
structure ToolSpec where
  name : List Char
  command : List Char
  description : List Char
deriving DecidableEq, Repr

/-- `parts[2] if len(parts) > 2 else 'default'` (line 252), given the
tokens after the subcommand. -/
def actionOf (more : List (List Char)) : List Char :=
  match more with
  | [] => "default".toList
  | a :: _ => a

/-- The dedup pattern key of a command (lines 243-272): split on
whitespace; a `gh` command with at least two tokens keys on
`gh_{subcommand}_{action}`, any other non-empty command keys on its first
token, and a whitespace-only command has no key (it is skipped by the
`continue`). -/
def patternKey (cmd : List Char) : Option (List Char) :=
  match pySplitWs cmd with
  | [] => none
  | [primary] => some primary
  | primary :: sub :: more =>
    if primary = "gh".toList then
      some (primary ++ '_' :: (sub ++ '_' :: actionOf more))
    else some primary

/-- The ToolSpec a command produces when its key is fresh
(lines 257-271). -/
def toolspecOf (skill cmd : List Char) : ToolSpec :=
  match pySplitWs cmd with
  | [] => ⟨skill, cmd, []⟩
  | [primary] =>
    ⟨skill ++ '_' :: primary, cmd,
      "Execute ".toList ++ primary ++ " command".toList⟩
  | primary :: sub :: more =>
    if primary = "gh".toList then
      ⟨skill ++ '_' :: (sub ++ '_' :: actionOf more), cmd,
        "Execute ".toList ++ sub ++ ' ' :: actionOf more ++ " command".toList⟩
    else
      ⟨skill ++ '_' :: primary, cmd,
        "Execute ".toList ++ primary ++ " command".toList⟩

/-- The command loop of `extract_workflow_tools`, with the `seen_patterns`
set threaded through (lines 238-273).  Both key kinds share the one
set. -/
def extractWorkflowAux (skill : List Char) (seen : List (List Char)) :
    List (List Char) → List ToolSpec
  | [] => []
  | cmd :: rest =>
    match patternKey cmd with
    | none => extractWorkflowAux skill seen rest
    | some k =>
      if k ∈ seen then extractWorkflowAux skill seen rest
      else toolspecOf skill cmd :: extractWorkflowAux skill (k :: seen) rest

/-- `extract_workflow_tools` (lines 222-274) on an already-extracted
command list and an already-resolved skill name. -/
def extract_workflow_tools_core (skill : List Char)
    (cmds : List (List Char)) : List ToolSpec :=
  extractWorkflowAux skill [] cmds

/-- The `seen_patterns` set after processing a command list. -/
def seenAfter (seen : List (List Char)) :
    List (List Char) → List (List Char)
  | [] => seen
  | cmd :: rest =>
    match patternKey cmd with
    | none => seenAfter seen rest
    | some k =>
      if k ∈ seen then seenAfter seen rest
      else seenAfter (k :: seen) rest

/-- Spec-side characterization (the refinement target of C1): keep, in
document order, the first command carrying each pattern key, dropping
every later command whose key was already taken; keyless (whitespace-only)
commands produce nothing. -/
def specFirstPerKey : List (List Char) → List (List Char)
  | [] => []
  | cmd :: rest =>
    match patternKey cmd with
    | none => specFirstPerKey rest
    | some k =>
      cmd :: specFirstPerKey
        (rest.filter (fun c => decide (patternKey c ≠ some k)))
termination_by l => l.length
decreasing_by
  · simp only [List.length_cons]; omega
  · simp only [List.length_cons]
    exact Nat.lt_succ_of_le (List.length_filter_le _ _)

theorem toolspecOf_command (skill cmd : List Char) :
    (toolspecOf skill cmd).command = cmd := by
  unfold toolspecOf
  rcases h : pySplitWs cmd with _ | ⟨p, _ | ⟨s, m⟩⟩
  · simp only [h]
  · simp only [h]
  · simp only [h]
    split <;> rfl

/-- Whether a key is still fresh w.r.t. a seen set. -/
def keyFresh (seen : List (List Char)) (c : List Char) : Bool :=
  match patternKey c with
  | none => true
  | some k => if k ∈ seen then false else true

theorem keyFresh_nil (c : List Char) : keyFresh [] c = true := by
  unfold keyFresh
  rcases patternKey c with _ | k <;> simp

theorem keyFresh_cons (k : List Char) (seen : List (List Char))
    (c : List Char) :
    keyFresh (k :: seen) c
      = (keyFresh seen c && decide (patternKey c ≠ some k)) := by
  unfold keyFresh
  rcases h : patternKey c with _ | k'
  · simp
  · by_cases h1 : k' = k
    · subst h1; simp
    · have : (some k' ≠ some k) := by simp [h1]
      by_cases h2 : k' ∈ seen <;> simp [h1, h2, List.mem_cons, this]

/-- The resolver loop is `specFirstPerKey` on the commands whose key is
still fresh, mapped through `toolspecOf`. -/
theorem extractWorkflowAux_eq_spec (skill : List Char) :
    ∀ (cmds : List (List Char)) (seen : List (List Char)),
      extractWorkflowAux skill seen cmds
        = (specFirstPerKey (cmds.filter (keyFresh seen))).map
            (toolspecOf skill) := by
  intro cmds
  induction cmds with
  | nil => intro seen; simp [extractWorkflowAux, specFirstPerKey]
  | cons cmd rest ih =>
    intro seen
    rcases hk : patternKey cmd with _ | k
    · have hf : keyFresh seen cmd = true := by simp [keyFresh, hk]
      simp only [extractWorkflowAux, hk, List.filter_cons, hf, if_true]
      rw [ih seen]
      have : specFirstPerKey (cmd :: rest.filter (keyFresh seen))
          = specFirstPerKey (rest.filter (keyFresh seen)) := by
        rw [specFirstPerKey]
        simp [hk]
      rw [this]
    · by_cases hs : k ∈ seen
      · have hf : keyFresh seen cmd = false := by simp [keyFresh, hk, hs]
        simp only [extractWorkflowAux, hk, hs, if_true, List.filter_cons, hf,
          Bool.false_eq_true]
        rw [ih seen]
        simp
      · have hf : keyFresh seen cmd = true := by simp [keyFresh, hk, hs]
        simp only [extractWorkflowAux, hk, hs, if_false, List.filter_cons, hf,
          if_true]
        rw [ih (k :: seen)]
        have hspec : specFirstPerKey (cmd :: rest.filter (keyFresh seen))
            = cmd :: specFirstPerKey
                ((rest.filter (keyFresh seen)).filter
                  (fun c => decide (patternKey c ≠ some k))) := by
          rw [specFirstPerKey]
          simp [hk]
        have hff : (rest.filter (keyFresh seen)).filter
              (fun c => decide (patternKey c ≠ some k))
            = rest.filter (keyFresh (k :: seen)) := by
          rw [List.filter_filter]
          apply List.filter_congr
          intro c _
          cases h1 : keyFresh seen c <;>
            cases h2 : decide (patternKey c ≠ some k) <;>
              simp [keyFresh_cons, h1, h2]
        rw [hspec, hff]
        simp

/-- The resolver on a full command list refines `specFirstPerKey`. -/
theorem extract_core_eq_spec (skill : List Char) (cmds : List (List Char)) :
    extract_workflow_tools_core skill cmds
      = (specFirstPerKey cmds).map (toolspecOf skill) := by
  unfold extract_workflow_tools_core
  rw [extractWorkflowAux_eq_spec]
  have : cmds.filter (keyFresh []) = cmds := by
    apply List.filter_eq_self.mpr
    intro c _
    exact keyFresh_nil c
  rw [this]

theorem specFirstPerKey_sublist : ∀ cmds : List (List Char),
    List.Sublist (specFirstPerKey cmds) cmds := by
  have H : ∀ (n : Nat) (cmds : List (List Char)), cmds.length ≤ n →
      List.Sublist (specFirstPerKey cmds) cmds := by
    intro n
    induction n with
    | zero =>
      intro cmds h
      have : cmds = [] := List.length_eq_zero.mp (Nat.le_zero.mp h)
      subst this
      simp [specFirstPerKey]
    | succ n ih =>
      intro cmds h
      match cmds with
      | [] => simp [specFirstPerKey]
      | cmd :: rest =>
        rw [specFirstPerKey]
        rcases hk : patternKey cmd with _ | k
        · exact (ih rest (by simpa using h)).cons cmd
        · refine List.Sublist.cons₂ cmd ?_
          exact ((ih _ (le_trans (List.length_filter_le _ _)
            (by simpa using h)))).trans (List.filter_sublist rest)
  intro cmds
  exact H cmds.length cmds le_rfl

theorem specFirstPerKey_keys_nodup : ∀ cmds : List (List Char),
    ((specFirstPerKey cmds).map patternKey).Nodup := by
  have H : ∀ (n : Nat) (cmds : List (List Char)), cmds.length ≤ n →
      ((specFirstPerKey cmds).map patternKey).Nodup := by
    intro n
    induction n with
    | zero =>
      intro cmds h
      have : cmds = [] := List.length_eq_zero.mp (Nat.le_zero.mp h)
      subst this
      simp [specFirstPerKey]
    | succ n ih =>
      intro cmds h
      match cmds with
      | [] => simp [specFirstPerKey]
      | cmd :: rest =>
        rw [specFirstPerKey]
        rcases hk : patternKey cmd with _ | k
        · exact ih rest (by simpa using h)
        · simp only [List.map_cons, List.nodup_cons]
          constructor
          · intro hmem
            obtain ⟨c', hc', hkc'⟩ := List.mem_map.mp hmem
            have hcf : c' ∈ rest.filter
                (fun c => decide (patternKey c ≠ some k)) :=
              (specFirstPerKey_sublist _).subset hc'
            have := (List.mem_filter.mp hcf).2
            rw [hkc'] at this
            simp only [decide_eq_true_eq] at this
            exact this hk
          · exact ih _ (le_trans (List.length_filter_le _ _)
              (by simpa using h))
  intro cmds
  exact H cmds.length cmds le_rfl

theorem specFirstPerKey_key_isSome : ∀ (cmds : List (List Char))
    (c : List Char), c ∈ specFirstPerKey cmds →
    (patternKey c).isSome = true := by
  have H : ∀ (n : Nat) (cmds : List (List Char)), cmds.length ≤ n →
      ∀ c ∈ specFirstPerKey cmds, (patternKey c).isSome = true := by
    intro n
    induction n with
    | zero =>
      intro cmds h
      have : cmds = [] := List.length_eq_zero.mp (Nat.le_zero.mp h)
      subst this
      simp [specFirstPerKey]
    | succ n ih =>
      intro cmds h c hc
      cases cmds with
      | nil => simp [specFirstPerKey] at hc
      | cons cmd rest =>
        rw [specFirstPerKey] at hc
        rcases hk : patternKey cmd with _ | k <;> rw [hk] at hc
        · exact ih rest (by simpa using h) c hc
        · have hc' : c = cmd ∨ c ∈ specFirstPerKey
              (rest.filter (fun c => decide (patternKey c ≠ some k))) :=
            List.mem_cons.mp hc
          rcases hc' with rfl | hc'
          · simp [hk]
          · exact ih _ (le_trans (List.length_filter_le _ _)
              (by simpa using h)) c hc'
  intro cmds c hc
  exact H cmds.length cmds le_rfl c hc

/-! ### Claim C1 -/

/-- C1: one resolution pass produces exactly one ToolSpec per distinct
pattern key — the resolver equals `specFirstPerKey` (first command in
document order per key, first-occurrence order preserved: the kept
commands form a sublist of the input) mapped through `toolspecOf`, and the
keys of the output are duplicate-free.  On the spec's concrete input with
skill name `skill`, exactly `skill_issue_list` and `skill_pr_list` are
produced, in that order. -/
theorem C1_one_toolspec_per_key :
    (∀ (skill : List Char) (cmds : List (List Char)),
        extract_workflow_tools_core skill cmds
          = (specFirstPerKey cmds).map (toolspecOf skill))
    ∧ (∀ cmds : List (List Char), List.Sublist (specFirstPerKey cmds) cmds)
    ∧ (∀ (skill : List Char) (cmds : List (List Char)),
        ((extract_workflow_tools_core skill cmds).map
          (fun t => patternKey t.command)).Nodup)
    ∧ extract_workflow_tools_core "skill".toList
        ["gh issue list --repo o/r".toList,
          "gh issue list --repo o/r".toList,
          "gh pr list --repo o/r".toList]
      = [⟨"skill_issue_list".toList, "gh issue list --repo o/r".toList,
            "Execute issue list command".toList⟩,
          ⟨"skill_pr_list".toList, "gh pr list --repo o/r".toList,
            "Execute pr list command".toList⟩] := by
  refine ⟨extract_core_eq_spec, specFirstPerKey_sublist, ?_, by decide⟩
  intro skill cmds
  rw [extract_core_eq_spec, List.map_map]
  have : (fun t => patternKey (ToolSpec.command t)) ∘ toolspecOf skill
      = patternKey := by
    funext c
    simp [Function.comp, toolspecOf_command]
  rw [this]
  exact specFirstPerKey_keys_nodup cmds

/-! ### Claim C4 -/

/-- Whether a command is named by the `gh` rule (line 250): first token
`gh` and at least two tokens. -/
def ghRule (cmd : List Char) : Bool :=
  match pySplitWs cmd with
  | p :: _ :: _ => decide (p = "gh".toList)
  | _ => false

theorem gh_shape (skill cmd : List Char) (h : ghRule cmd = true) :
    ∃ sub more, pySplitWs cmd = "gh".toList :: sub :: more
      ∧ patternKey cmd
          = some ("gh".toList ++ '_' :: (sub ++ '_' :: actionOf more))
      ∧ (toolspecOf skill cmd).name
          = skill ++ '_' :: (sub ++ '_' :: actionOf more) := by
  unfold ghRule at h
  rcases hsp : pySplitWs cmd with _ | ⟨p, _ | ⟨s, m⟩⟩ <;> rw [hsp] at h
  · simp at h
  · simp at h
  · have hp : p = "gh".toList := by simpa using h
    subst hp
    exact ⟨s, m, rfl, by simp [patternKey, hsp], by simp [toolspecOf, hsp]⟩

theorem generic_shape (skill cmd : List Char) (h : ghRule cmd = false)
    (h2 : (patternKey cmd).isSome = true) :
    ∃ p, patternKey cmd = some p
      ∧ (toolspecOf skill cmd).name = skill ++ '_' :: p := by
  unfold ghRule at h
  rcases hsp : pySplitWs cmd with _ | ⟨p, _ | ⟨s, m⟩⟩ <;> rw [hsp] at h
  · exfalso
    rw [show patternKey cmd = none by simp [patternKey, hsp]] at h2
    simp at h2
  · exact ⟨p, by simp [patternKey, hsp], by simp [toolspecOf, hsp]⟩
  · have hp : ¬ p = "gh".toList := by simpa using h
    have hp2 : ¬ p = ['g', 'h'] := hp
    exact ⟨p, by simp [patternKey, hsp, hp, hp2],
      by simp [toolspecOf, hsp, hp, hp2]⟩

/-- Two keyed commands resolved by the same rule get different names
whenever their keys differ. -/
theorem toolspec_name_inj (skill c1 c2 : List Char)
    (h1 : (patternKey c1).isSome = true)
    (h2 : (patternKey c2).isSome = true)
    (hr : ghRule c1 = ghRule c2) (hk : patternKey c1 ≠ patternKey c2) :
    (toolspecOf skill c1).name ≠ (toolspecOf skill c2).name := by
  intro hname
  cases hg : ghRule c1 with
  | true =>
    have hg2 : ghRule c2 = true := by rw [← hr, hg]
    obtain ⟨s1, m1, _, hk1, hn1⟩ := gh_shape skill c1 hg
    obtain ⟨s2, m2, _, hk2, hn2⟩ := gh_shape skill c2 hg2
    rw [hn1, hn2] at hname
    have hXY : s1 ++ '_' :: actionOf m1 = s2 ++ '_' :: actionOf m2 := by
      have := (List.append_right_inj skill).mp hname
      simpa using this
    exact hk (by rw [hk1, hk2, hXY])
  | false =>
    have hg2 : ghRule c2 = false := by rw [← hr, hg]
    obtain ⟨p1, hk1, hn1⟩ := generic_shape skill c1 hg h1
    obtain ⟨p2, hk2, hn2⟩ := generic_shape skill c2 hg2 h2
    rw [hn1, hn2] at hname
    have hp : p1 = p2 := by
      have := (List.append_right_inj skill).mp hname
      simpa using this
    exact hk (by rw [hk1, hk2, hp])

/-- Within one resolution pass, any two ToolSpecs resolved by the same
rule carry distinct names. -/
theorem extract_core_name_pairwise (skill : List Char)
    (cmds : List (List Char)) :
    (extract_workflow_tools_core skill cmds).Pairwise
      (fun t1 t2 => ghRule t1.command = ghRule t2.command →
        t1.name ≠ t2.name) := by
  rw [extract_core_eq_spec, List.pairwise_map]
  have h0 := specFirstPerKey_keys_nodup cmds
  unfold List.Nodup at h0
  rw [List.pairwise_map] at h0
  refine h0.imp_of_mem ?_
  intro c1 c2 hm1 hm2 hne
  intro hr
  rw [toolspecOf_command, toolspecOf_command] at hr
  exact toolspec_name_inj skill c1 c2
    (specFirstPerKey_key_isSome cmds c1 hm1)
    (specFirstPerKey_key_isSome cmds c2 hm2) hr hne

/-- C4 counterexample: the claim says two distinct ToolSpecs of one pass
can never share a name.  A `gh`-derived name and a generic name collide:
`gh issue list` gives `skill_issue_list` via the `gh` rule, and a later
command whose first token is literally `issue_list` gives the same name
via the generic rule — two distinct ToolSpecs, equal names. -/
theorem C4_counterexample :
    extract_workflow_tools_core "skill".toList
        ["gh issue list".toList, "issue_list".toList]
      = [⟨"skill_issue_list".toList, "gh issue list".toList,
            "Execute issue list command".toList⟩,
          ⟨"skill_issue_list".toList, "issue_list".toList,
            "Execute issue_list command".toList⟩]
    ∧ ¬ ((extract_workflow_tools_core "skill".toList
          ["gh issue list".toList, "issue_list".toList]).map
            ToolSpec.name).Nodup := by
  exact ⟨by decide, by decide⟩

/-- C4 (amended): two distinct ToolSpecs of one pass that were resolved by
the **same** rule (both by the `gh` rule, or both by the generic rule)
always have different generated names; a `gh`-derived name can, however,
coincide with a generic name produced in the same pass. -/
theorem C4_same_rule_names_unique (skill : List Char)
    (cmds : List (List Char))
    (i j : Fin (extract_workflow_tools_core skill cmds).length)
    (hij : (i : Nat) < (j : Nat))
    (hr : ghRule (((extract_workflow_tools_core skill cmds).get i).command)
        = ghRule (((extract_workflow_tools_core skill cmds).get j).command)) :
    ((extract_workflow_tools_core skill cmds).get i).name
      ≠ ((extract_workflow_tools_core skill cmds).get j).name := by
  have hp := extract_core_name_pairwise skill cmds
  rw [List.pairwise_iff_get] at hp
  exact hp i j hij hr

/-- Witness for C4's amended theorem: two `gh`-rule tools of one pass have
distinct names. -/
theorem C4_same_rule_names_unique_witness :
    ((extract_workflow_tools_core "skill".toList
        ["gh issue list".toList, "gh pr list".toList]).get
          ⟨0, by decide⟩).name
      ≠ ((extract_workflow_tools_core "skill".toList
        ["gh issue list".toList, "gh pr list".toList]).get
          ⟨1, by decide⟩).name := by
  exact C4_same_rule_names_unique "skill".toList
    ["gh issue list".toList, "gh pr list".toList]
    ⟨0, by decide⟩ ⟨1, by decide⟩ (by decide) (by decide)

/-! ### Claim C10 -/

theorem extractWorkflowAux_append (skill : List Char) :
    ∀ (pre rest seen : _),
      extractWorkflowAux skill seen (pre ++ rest)
        = extractWorkflowAux skill seen pre
          ++ extractWorkflowAux skill (seenAfter seen pre) rest := by
  intro pre
  induction pre with
  | nil => intro rest seen; simp [extractWorkflowAux, seenAfter]
  | cons cmd pre' ih =>
    intro rest seen
    rcases hk : patternKey cmd with _ | k
    · simp only [List.cons_append, extractWorkflowAux, seenAfter, hk]
      exact ih rest seen
    · by_cases hs : k ∈ seen
      · simp only [List.cons_append, extractWorkflowAux, seenAfter, hk, hs,
          if_true]
        exact ih rest seen
      · simp only [List.cons_append, extractWorkflowAux, seenAfter, hk, hs,
          if_false]
        congr 1
        exact ih rest (k :: seen)

theorem mem_seenAfter_mono :
    ∀ (cmds seen : _) (k : List Char), k ∈ seen → k ∈ seenAfter seen cmds := by
  intro cmds
  induction cmds with
  | nil => intro seen k h; exact h
  | cons cmd rest ih =>
    intro seen k h
    rcases hk : patternKey cmd with _ | k'
    · simp only [seenAfter, hk]
      exact ih seen k h
    · by_cases hs : k' ∈ seen
      · simp only [seenAfter, hk, hs, if_true]
        exact ih seen k h
      · simp only [seenAfter, hk, hs, if_false]
        exact ih (k' :: seen) k (List.mem_cons_of_mem _ h)

theorem mem_seenAfter_of_key (c : List Char) :
    ∀ (cmds seen : _), c ∈ cmds → ∀ k, patternKey c = some k →
      k ∈ seenAfter seen cmds := by
  intro cmds
  induction cmds with
  | nil => intro seen hc; simp at hc
  | cons cmd rest ih =>
    intro seen hc k hck
    rcases List.mem_cons.mp hc with rfl | hc'
    · simp only [seenAfter, hck]
      by_cases hs : k ∈ seen
      · simp only [hs, if_true]
        exact mem_seenAfter_mono rest seen k hs
      · simp only [hs, if_false]
        exact mem_seenAfter_mono rest (k :: seen) k (List.mem_cons_self _ _)
    · rcases hk : patternKey cmd with _ | k'
      · simp only [seenAfter, hk]
        exact ih seen hc' k hck
      · by_cases hs : k' ∈ seen
        · simp only [seenAfter, hk, hs, if_true]
          exact ih seen hc' k hck
        · simp only [seenAfter, hk, hs, if_false]
          exact ih (k' :: seen) hc' k hck

theorem extractWorkflowAux_skip (skill cmd : List Char)
    (post seen : _) (k : List Char)
    (hk : patternKey cmd = some k) (hs : k ∈ seen) :
    extractWorkflowAux skill seen (cmd :: post)
      = extractWorkflowAux skill seen post := by
  simp only [extractWorkflowAux, hk, hs, if_true]

/-- C10: `gh`-derived pattern keys and generic primary-token keys live in
the one shared `seen_patterns` set, so when a `gh` command with subcommand
`sub` and action `actionOf more` occurs anywhere before a command whose
first whitespace token is the literal string `gh_{sub}_{action}`, the
later command produces no ToolSpec at all — the output is the same as if
that command were absent. -/
theorem C10_shared_seen_set (skill : List Char)
    (pre post : List (List Char)) (cmd c1 sub tok0 : List Char)
    (more toks : List (List Char))
    (hmem : c1 ∈ pre)
    (hc1 : pySplitWs c1 = "gh".toList :: sub :: more)
    (hcmd : pySplitWs cmd = tok0 :: toks)
    (htok : tok0 = "gh".toList ++ '_' :: (sub ++ '_' :: actionOf more)) :
    extract_workflow_tools_core skill (pre ++ cmd :: post)
      = extract_workflow_tools_core skill (pre ++ post) := by
  have hkey1 : patternKey c1 = some tok0 := by
    simp [patternKey, hc1, htok]
  have htok_ne : tok0 ≠ "gh".toList := by
    subst htok
    intro h
    have h2 : ('g' :: 'h' :: '_' :: (sub ++ '_' :: actionOf more) : List Char)
        = ['g', 'h'] := h
    simp at h2
  have hkeycmd : patternKey cmd = some tok0 := by
    unfold patternKey
    rw [hcmd]
    cases toks with
    | nil => rfl
    | cons t ts =>
      have h3 : ¬ tok0 = ['g', 'h'] := htok_ne
      simp [htok_ne, h3]
  unfold extract_workflow_tools_core
  rw [extractWorkflowAux_append, extractWorkflowAux_append]
  congr 1
  exact extractWorkflowAux_skip skill cmd post _ tok0 hkeycmd
    (mem_seenAfter_of_key c1 pre [] hmem tok0 hkey1)

/-- Witness for C10: `gh issue list` followed by `gh_issue_list foo`
yields the same ToolSpecs as `gh issue list` alone. -/
theorem C10_shared_seen_set_witness :
    extract_workflow_tools_core "skill".toList
        ["gh issue list".toList, "gh_issue_list foo".toList]
      = extract_workflow_tools_core "skill".toList
        ["gh issue list".toList] := by
  exact C10_shared_seen_set "skill".toList ["gh issue list".toList] []
    "gh_issue_list foo".toList "gh issue list".toList "issue".toList
    "gh_issue_list".toList ["list".toList] ["foo".toList]
    (by decide) (by decide) (by decide) (by decide)

/-! ## Document Parser: commands (converter.py lines 42-65)

`extract_tool_commands` runs
`re.findall(r'```bash\n(.*?)\n```', content, re.DOTALL)` and, per block,
keeps the stripped non-blank lines not starting with `#` or `//`. -/

/-- The backtick character (obtained from a string literal). -/
def btick : Char := "`".toList.headI

/-- The opener pattern: three backticks, `bash`, newline. -/
def bashOpen : List Char := "```bash\n".toList

/-- The closer pattern: newline, three backticks. -/
def bashClose : List Char := "\n```".toList

/-- Fuel-based scanner equivalent of the findall: locate the next opener;
the non-greedy group runs to the first following closer; scanning resumes
after the closer.  If the first opener has no closer after it, no later
opener has one either (any closer after a later opener would already close
the first), so the regex finds no further match.  Fuel bounds the number
of blocks; the input length suffices. -/
def bashBlocksF : Nat → List Char → List (List Char)
  | 0, _ => []
  | fuel + 1, s =>
    match splitOnFirst bashOpen s with
    | none => []
    | some (_, rest) =>
      match splitOnFirst bashClose rest with
      | none => []
      | some (blk, rest') => blk :: bashBlocksF fuel rest'

/-- One block's command lines (lines 58-63): split on newlines, strip,
keep non-blank lines not starting with `#` or `//`. -/
def cleanBlock (blk : List Char) : List (List Char) :=
  (splitChar '\n' blk).filterMap (fun line =>
    let t := pyStrip line
    if !t.isEmpty && !startsWith "#".toList t && !startsWith "//".toList t
    then some t else none)

/-- `extract_tool_commands` (lines 42-65) on document text. -/
def extract_tool_commands (content : List Char) : List (List Char) :=
  ((bashBlocksF content.length content).map cleanBlock).flatten

/-! ### A structured document model for stating C8 -/

/-- A markdown item: free text, or one fenced block with its tag. -/
inductive MdItem
  | text (s : List Char)
  | block (tag body : List Char)
deriving DecidableEq, Repr

/-- Render one item to raw text.  A block renders as
three backticks, the tag, a newline, the body, a newline, three
backticks. -/
def renderItem : MdItem → List Char
  | .text s => s
  | .block tag body => "```".toList ++ tag ++ '\n' :: (body ++ "\n```".toList)

/-- Render a document. -/
def renderDoc : List MdItem → List Char
  | [] => []
  | it :: d => renderItem it ++ renderDoc d

/-- The bodies of the blocks whose tag is exactly `bash`
(case-sensitive), in document order. -/
def bashBodies : List MdItem → List (List Char)
  | [] => []
  | .text _ :: d => bashBodies d
  | .block tag body :: d =>
    if tag = "bash".toList then body :: bashBodies d else bashBodies d

/-- `c` occurs nowhere in `s`. -/
def chNotIn (c : Char) (s : List Char) : Bool :=
  s.all (fun a => !(a == c))

/-- No block item at the head (used to rule out two adjacent fences). -/
def noLeadingBlock : List MdItem → Bool
  | MdItem.block _ _ :: _ => false
  | _ => true

/-- Well-formed document: text spans are backtick-free, non-empty and
start on a fresh line; tags are free of backticks and newlines; bodies are
backtick-free; and two blocks are never adjacent (separate them by a
newline text span). -/
def wfDoc : List MdItem → Bool
  | [] => true
  | .text s :: d =>
    chNotIn btick s
      && (match s with | [] => false | c :: _ => c == '\n')
      && wfDoc d
  | .block tag body :: d =>
    chNotIn btick tag && chNotIn '\n' tag && chNotIn btick body
      && noLeadingBlock d
      && wfDoc d

theorem chNotIn_iff (c : Char) (s : List Char) :
    chNotIn c s = true ↔ c ∉ s := by
  simp only [chNotIn, List.all_eq_true, Bool.not_eq_true', beq_eq_false_iff_ne]
  constructor
  · intro h hc
    exact (h c hc) rfl
  · intro h a ha he
    exact h (he ▸ ha)

/-! ### Splitting lemmas -/

theorem startsWith_self_append (p z : List Char) :
    startsWith p (p ++ z) = true := by
  induction p with
  | nil => rfl
  | cons c p' ih => simp [startsWith, ih]

theorem splitOnFirst_self (pat z : List Char) (h : pat ≠ []) :
    splitOnFirst pat (pat ++ z) = some ([], z) := by
  rcases pat with _ | ⟨c, p'⟩
  · exact absurd rfl h
  · simp only [List.cons_append, splitOnFirst, List.append_eq]
    rw [show startsWith (c :: p') (c :: (p' ++ z)) = true from
      startsWith_self_append (c :: p') z]
    simp only [if_true]
    congr 1
    simp only [List.length_cons, List.drop_succ_cons]
    exact congrArg _ (List.drop_left p' z)

/-- No match of `pat` starts inside `x` when `x` is followed by `r`. -/
def noStartIn (pat x r : List Char) : Prop :=
  ∀ i, i < x.length → startsWith pat (x.drop i ++ r) = false

theorem noStartIn_append (pat x y r : List Char)
    (hx : noStartIn pat x (y ++ r)) (hy : noStartIn pat y r) :
    noStartIn pat (x ++ y) r := by
  intro i hi
  by_cases hxi : i < x.length
  · rw [List.drop_append_of_le_length (Nat.le_of_lt hxi), List.append_assoc]
    exact hx i hxi
  · push_neg at hxi
    obtain ⟨j, rfl⟩ : ∃ j, i = x.length + j :=
      ⟨i - x.length, by omega⟩
    rw [List.drop_append]
    apply hy
    rw [List.length_append] at hi
    omega

/-- A segment avoiding the pattern's first character admits no match
start. -/
theorem noStartIn_of_not_mem (c₀ : Char) (p' x r : List Char)
    (hx : c₀ ∉ x) :
    noStartIn (c₀ :: p') x r := by
  induction x with
  | nil => intro i hi; simp at hi
  | cons c x' ih =>
    intro i hi
    cases i with
    | zero =>
      have hc : ¬ c₀ = c := fun he => hx (he ▸ List.mem_cons_self c x')
      simp [startsWith, hc]
    | succ i' =>
      have := ih (fun hm => hx (List.mem_cons_of_mem c hm)) i'
        (by simpa using hi)
      simpa using this

theorem splitOnFirst_shift (pat x r : List Char)
    (h : noStartIn pat x r) :
    splitOnFirst pat (x ++ r)
      = (splitOnFirst pat r).map (fun p => (x ++ p.1, p.2)) := by
  induction x with
  | nil =>
    simp only [List.nil_append]
    rcases hs : splitOnFirst pat r with _ | ⟨b, a⟩ <;> simp [hs]
  | cons c x' ih =>
    have h0 : startsWith pat (c :: x' ++ r) = false := by
      have := h 0 (by simp)
      simpa using this
    rw [List.cons_append] at h0
    simp only [List.cons_append, splitOnFirst, h0, Bool.false_eq_true,
      if_false, List.append_eq]
    rw [ih (fun i hi => by
      have := h (i + 1) (by simpa using Nat.succ_lt_succ hi)
      simpa using this)]
    rcases hs : splitOnFirst pat r with _ | ⟨b, a⟩ <;> simp [hs]

theorem splitOnFirst_none_of_noStart (pat s : List Char)
    (hp : pat ≠ []) (h : noStartIn pat s []) :
    splitOnFirst pat s = none := by
  have := splitOnFirst_shift pat s [] (by
    intro i hi
    have := h i hi
    simpa using this)
  rw [List.append_nil] at this
  rw [this]
  rcases pat with _ | ⟨c, p'⟩
  · exact absurd rfl hp
  · rfl

theorem bashBlocksF_skip (x r : List Char)
    (h : noStartIn bashOpen x r) :
    ∀ fuel, bashBlocksF fuel (x ++ r) = bashBlocksF fuel r := by
  intro fuel
  cases fuel with
  | zero => rfl
  | succ f =>
    simp only [bashBlocksF]
    rw [splitOnFirst_shift bashOpen x r h]
    rcases hs : splitOnFirst bashOpen r with _ | ⟨b, a⟩ <;> simp

theorem bashOpen_eq :
    bashOpen
      = btick :: btick :: btick :: 'b' :: 'a' :: 's' :: 'h' :: '\n' :: [] := by
  decide

theorem bashClose_eq :
    bashClose = '\n' :: btick :: btick :: btick :: [] := by
  decide

/-- The first `\n```' after a bash opener is the block's own closing
fence, because the body carries no backtick. -/
theorem splitOnFirst_close (body r : List Char) (hb : btick ∉ body) :
    splitOnFirst bashClose (body ++ (bashClose ++ r)) = some (body, r) := by
  have hns : noStartIn bashClose body (bashClose ++ r) := by
    intro i hi
    rcases hdrop : body.drop i with _ | ⟨c, d'⟩
    · have h0 : body.length - i = 0 := by
        have := congrArg List.length hdrop
        simpa using this
      omega
    · have hcmem : c ∈ body :=
        List.drop_subset i body (hdrop ▸ List.mem_cons_self c d')
      rw [bashClose_eq]
      by_cases hc : c = '\n'
      · subst hc
        simp only [List.cons_append, startsWith, beq_self_eq_true,
          Bool.true_and]
        rcases d' with _ | ⟨c2, d''⟩
        · have hb1 : (btick == '\n') = false := by decide
          simp [startsWith, bashClose_eq, hb1]
        · have hc2mem : c2 ∈ body :=
            List.drop_subset i body
              (hdrop ▸ List.mem_cons_of_mem '\n' (List.mem_cons_self c2 d''))
          have hb2 : ¬ btick = c2 := fun he => hb (he ▸ hc2mem)
          simp [startsWith, hb2]
      · have : ¬ '\n' = c := fun he => hc he.symm
        simp [startsWith, this]
  rw [splitOnFirst_shift bashClose body (bashClose ++ r) hns,
    splitOnFirst_self bashClose r (by decide)]
  simp

/-- A newline can never begin an opener match. -/
theorem noStartIn_nl (R : List Char) : noStartIn bashOpen ['\n'] R := by
  intro i hi
  have hi0 : i = 0 := by simpa using Nat.lt_one_iff.mp (by simpa using hi)
  subst hi0
  rw [bashOpen_eq]
  have : (btick == '\n') = false := by decide
  simp [startsWith, this]

/-- After a closing fence the document is empty or continues on a fresh
line, so no opener match starts inside the three closing backticks. -/
theorem noStartIn_bts (r : List Char)
    (hr : r = [] ∨ ∃ r', r = '\n' :: r') :
    noStartIn bashOpen [btick, btick, btick] r := by
  intro i hi
  have hi3 : i < 3 := by simpa using hi
  rw [bashOpen_eq]
  have hb : ('b' == '\n') = false := by decide
  have hbt : (btick == '\n') = false := by decide
  rcases hr with rfl | ⟨r', rfl⟩ <;> interval_cases i <;>
    simp [startsWith, hb, hbt]

/-- `bash\n` never follows a non-`bash` tag position. -/
theorem tag_not_bash_lemma (tag z : List Char)
    (htag : tag ≠ "bash".toList) (htn : '\n' ∉ tag) :
    startsWith ('b' :: 'a' :: 's' :: 'h' :: '\n' :: []) (tag ++ '\n' :: z)
      = false := by
  rcases tag with _ | ⟨c1, _ | ⟨c2, _ | ⟨c3, _ | ⟨c4, _ | ⟨c5, rest⟩⟩⟩⟩⟩
  · have h : ('b' == '\n') = false := by decide
    simp [startsWith, h]
  · have h : ('a' == '\n') = false := by decide
    simp [startsWith, h]
  · have h : ('s' == '\n') = false := by decide
    simp [startsWith, h]
  · have h : ('h' == '\n') = false := by decide
    simp [startsWith, h]
  · rw [Bool.eq_false_iff]
    intro hT
    simp only [List.cons_append, List.nil_append, startsWith,
      Bool.and_eq_true, beq_iff_eq] at hT
    obtain ⟨h1, h2, h3, h4, -⟩ := hT
    apply htag
    rw [← h1, ← h2, ← h3, ← h4]
    decide
  · have hc5 : ¬ '\n' = c5 := fun he => htn (by rw [he]; simp)
    have h : ('\n' == c5) = false := beq_eq_false_iff_ne.mpr hc5
    simp [startsWith, h]

/-- No opener match starts inside the three opening backticks of a block
whose tag is not `bash`. -/
theorem noStartIn_open_bts (tag z : List Char)
    (htag : tag ≠ "bash".toList) (htb : btick ∉ tag) (htn : '\n' ∉ tag) :
    noStartIn bashOpen [btick, btick, btick] (tag ++ '\n' :: z) := by
  have hhead : ∀ w : List Char,
      startsWith (btick :: w) (tag ++ '\n' :: z) = false := by
    intro w
    rcases tag with _ | ⟨c, tag'⟩
    · have h : (btick == '\n') = false := by decide
      simp [startsWith, h]
    · have hc : ¬ btick = c := fun he => htb (he ▸ List.mem_cons_self c tag')
      simp [startsWith, hc]
  have htg := tag_not_bash_lemma tag z htag htn
  intro i hi
  have hi3 : i < 3 := by simpa using hi
  rw [bashOpen_eq]
  interval_cases i <;> simp [startsWith, htg, hhead]

/-- No opener match starts anywhere inside the rendering of a non-`bash`
block that is followed by nothing or by a fresh line. -/
theorem noStartIn_blockRender (tag body r : List Char)
    (htag : tag ≠ "bash".toList) (htb : btick ∉ tag) (htn : '\n' ∉ tag)
    (hbb : btick ∉ body) (hr : r = [] ∨ ∃ r', r = '\n' :: r') :
    noStartIn bashOpen (renderItem (MdItem.block tag body)) r := by
  have h6 := noStartIn_bts r hr
  have h5 : noStartIn bashOpen ['\n'] ([btick, btick, btick] ++ r) :=
    noStartIn_nl _
  have h56 := noStartIn_append bashOpen ['\n'] [btick, btick, btick] r h5 h6
  have h4 : noStartIn bashOpen body
      ((['\n'] ++ [btick, btick, btick]) ++ r) := by
    rw [bashOpen_eq]
    exact noStartIn_of_not_mem _ _ _ _ hbb
  have h456 := noStartIn_append bashOpen body
    (['\n'] ++ [btick, btick, btick]) r h4 h56
  have h3 : noStartIn bashOpen ['\n']
      ((body ++ (['\n'] ++ [btick, btick, btick])) ++ r) := noStartIn_nl _
  have h3456 := noStartIn_append bashOpen ['\n']
    (body ++ (['\n'] ++ [btick, btick, btick])) r h3 h456
  have h2 : noStartIn bashOpen tag
      ((['\n'] ++ (body ++ (['\n'] ++ [btick, btick, btick]))) ++ r) := by
    rw [bashOpen_eq]
    exact noStartIn_of_not_mem _ _ _ _ htb
  have h23456 := noStartIn_append bashOpen tag
    (['\n'] ++ (body ++ (['\n'] ++ [btick, btick, btick]))) r h2 h3456
  have h1 : noStartIn bashOpen [btick, btick, btick]
      ((tag ++ (['\n'] ++ (body ++ (['\n'] ++ [btick, btick, btick])))) ++ r) := by
    have := noStartIn_open_bts tag
      ((body ++ ('\n' :: [btick, btick, btick])) ++ r) htag htb htn
    have he : tag ++ '\n' :: ((body ++ ('\n' :: [btick, btick, btick])) ++ r)
        = (tag ++ (['\n'] ++ (body ++ (['\n'] ++ [btick, btick, btick])))) ++ r := by
      simp [List.append_assoc]
    rwa [he] at this
  have hfull := noStartIn_append bashOpen [btick, btick, btick]
    (tag ++ (['\n'] ++ (body ++ (['\n'] ++ [btick, btick, btick])))) r h1 h23456
  have hre : renderItem (MdItem.block tag body)
      = [btick, btick, btick]
        ++ (tag ++ (['\n'] ++ (body ++ (['\n'] ++ [btick, btick, btick])))) := by
    have e1 : "```".toList = [btick, btick, btick] := by decide
    have e2 : "\n```".toList = '\n' :: [btick, btick, btick] := by decide
    simp only [renderItem, e1, e2, List.append_assoc, List.cons_append,
      List.singleton_append, List.nil_append]
  rwa [hre]

/-- A well-formed suffix that may follow a block: empty, or starting on a
fresh line. -/
theorem renderDoc_start (d : List MdItem) (hwf : wfDoc d = true)
    (hnb : noLeadingBlock d = true) :
    renderDoc d = [] ∨ ∃ r', renderDoc d = '\n' :: r' := by
  cases d with
  | nil => exact Or.inl rfl
  | cons it d' =>
    cases it with
    | text s =>
      right
      simp only [wfDoc, Bool.and_eq_true] at hwf
      obtain ⟨⟨-, h2⟩, -⟩ := hwf
      rcases s with _ | ⟨c, s'⟩
      · simp at h2
      · have hc : c = '\n' := by simpa using h2
        subst hc
        exact ⟨s' ++ renderDoc d', by simp [renderDoc, renderItem]⟩
    | block tag body => simp [noLeadingBlock] at hnb

/-- The block scanner on a rendered well-formed document (with any
backtick-free leading text) returns exactly the bodies of the `bash`
blocks, in order. -/
theorem bashBlocksF_render :
    ∀ (d : List MdItem) (s₀ : List Char) (fuel : Nat),
      wfDoc d = true → btick ∉ s₀ →
      (s₀ ++ renderDoc d).length ≤ fuel →
      bashBlocksF fuel (s₀ ++ renderDoc d) = bashBodies d := by
  intro d
  induction d with
  | nil =>
    intro s₀ fuel _ hs hf
    simp only [renderDoc, List.append_nil, bashBodies]
    cases fuel with
    | zero => rfl
    | succ f =>
      simp only [bashBlocksF]
      rw [splitOnFirst_none_of_noStart bashOpen s₀ (by decide)
        (by rw [bashOpen_eq]; exact noStartIn_of_not_mem _ _ _ _ hs)]
  | cons it d' ih =>
    intro s₀ fuel hwf hs hf
    cases it with
    | text s =>
      simp only [wfDoc, Bool.and_eq_true] at hwf
      obtain ⟨⟨h1, -⟩, h3⟩ := hwf
      simp only [renderDoc, renderItem, bashBodies]
      rw [← List.append_assoc]
      apply ih (s₀ ++ s) fuel h3
      · intro hm
        rcases List.mem_append.mp hm with hm | hm
        · exact hs hm
        · exact (chNotIn_iff btick s).mp h1 hm
      · have he : (s₀ ++ s) ++ renderDoc d'
            = s₀ ++ renderDoc (MdItem.text s :: d') := by
          simp [renderDoc, renderItem, List.append_assoc]
        rw [he]
        exact hf
    | block tag body =>
      simp only [wfDoc, Bool.and_eq_true] at hwf
      obtain ⟨⟨⟨⟨htb, htn⟩, hbb⟩, hnext⟩, hwf'⟩ := hwf
      have htb' := (chNotIn_iff _ _).mp htb
      have htn' := (chNotIn_iff _ _).mp htn
      have hbb' := (chNotIn_iff _ _).mp hbb
      by_cases htag : tag = "bash".toList
      · subst htag
        have hre : renderItem (MdItem.block "bash".toList body) ++ renderDoc d'
            = bashOpen ++ (body ++ (bashClose ++ renderDoc d')) := by
          have e1 : "```".toList = [btick, btick, btick] := by decide
          have e2 : "\n```".toList = '\n' :: [btick, btick, btick] := by decide
          have e3 : bashOpen = [btick, btick, btick]
              ++ ("bash".toList ++ ['\n']) := by decide
          simp only [renderItem, e1, e2, e3, bashClose_eq, List.append_assoc,
            List.cons_append, List.singleton_append, List.nil_append]
        have hlenO : bashOpen.length = 8 := by decide
        have hlenC : bashClose.length = 4 := by decide
        simp only [renderDoc] at hf ⊢
        rw [hre] at hf ⊢
        simp only [bashBodies, if_pos rfl]
        cases fuel with
        | zero =>
          exfalso
          simp only [List.length_append, hlenO, hlenC, Nat.le_zero] at hf
          omega
        | succ f =>
          simp only [bashBlocksF]
          rw [splitOnFirst_shift bashOpen s₀ _
            (by rw [bashOpen_eq]; exact noStartIn_of_not_mem _ _ _ _ hs)]
          rw [splitOnFirst_self bashOpen _ (by decide)]
          simp only [Option.map_some']
          rw [splitOnFirst_close body (renderDoc d') hbb']
          have hlen : (([] : List Char) ++ renderDoc d').length ≤ f := by
            simp only [List.length_append, hlenO, hlenC] at hf
            simp
            omega
          have := ih [] f hwf' (by simp) hlen
          simpa using this
      · have hstart := renderDoc_start d' hwf' hnext
        have hnsX := noStartIn_blockRender tag body (renderDoc d')
          htag htb' htn' hbb' hstart
        have hnsS : noStartIn bashOpen s₀
            (renderItem (MdItem.block tag body) ++ renderDoc d') := by
          rw [bashOpen_eq]
          exact noStartIn_of_not_mem _ _ _ _ hs
        have hns := noStartIn_append bashOpen s₀
          (renderItem (MdItem.block tag body)) (renderDoc d') hnsS hnsX
        simp only [renderDoc]
        rw [← List.append_assoc, bashBlocksF_skip _ _ hns fuel]
        have hlen : (([] : List Char) ++ renderDoc d').length ≤ fuel := by
          simp only [renderDoc, List.length_append] at hf
          simp only [List.nil_append]
          omega
        have := ih [] fuel hwf' (by simp) hlen
        simp only [List.nil_append] at this
        rw [this]
        have htag' : ¬ tag = ['b', 'a', 's', 'h'] := htag
        simp [bashBodies, htag']

/-- `extract_tool_commands` on a rendered document. -/
theorem extract_tool_commands_render (s₀ : List Char) (d : List MdItem)
    (hs : btick ∉ s₀) (hwf : wfDoc d = true) :
    extract_tool_commands (s₀ ++ renderDoc d)
      = ((bashBodies d).map cleanBlock).flatten := by
  unfold extract_tool_commands
  rw [bashBlocksF_render d s₀ _ hwf hs le_rfl]

/-! ### Claim C8 -/

/-- C8: `extract_tool_commands` returns, in document order, exactly the
kept lines of every fenced block whose tag is exactly `bash`
(case-sensitive), concatenated across blocks in order of appearance, with
blank lines and lines whose stripped form begins with `#` or `//`
excluded (the kept lines are the stripped ones, as the source appends
`line.strip()`); documents with no such block give the empty sequence. -/
theorem C8_bash_block_lines :
    (∀ (s₀ : List Char) (d : List MdItem), btick ∉ s₀ → wfDoc d = true →
        extract_tool_commands (s₀ ++ renderDoc d)
          = ((bashBodies d).map cleanBlock).flatten)
    ∧ extract_tool_commands
        ("x\n```bash\ncmd1\n# note\n\n// note\n  cmd2\n```\ny".toList)
        = ["cmd1".toList, "cmd2".toList]
    ∧ extract_tool_commands ("x\n```Bash\ncmd\n```\n".toList) = []
    ∧ extract_tool_commands ("no fenced blocks here".toList) = [] := by
  refine ⟨extract_tool_commands_render, by decide, by decide, by decide⟩

/-- Witness for C8 at a concrete three-block document. -/
theorem C8_bash_block_lines_witness :
    extract_tool_commands ("intro\n".toList ++ renderDoc
        [MdItem.block "bash".toList "a\n# c".toList,
          MdItem.text "\n".toList,
          MdItem.block "py".toList "b".toList,
          MdItem.text "\n".toList,
          MdItem.block "bash".toList "d".toList])
      = ((bashBodies
          [MdItem.block "bash".toList "a\n# c".toList,
            MdItem.text "\n".toList,
            MdItem.block "py".toList "b".toList,
            MdItem.text "\n".toList,
            MdItem.block "bash".toList "d".toList]).map cleanBlock).flatten := by
  exact C8_bash_block_lines.1 "intro\n".toList
    [MdItem.block "bash".toList "a\n# c".toList,
      MdItem.text "\n".toList,
      MdItem.block "py".toList "b".toList,
      MdItem.text "\n".toList,
      MdItem.block "bash".toList "d".toList] (by decide) (by decide)

/-! ## Code Synthesizer (converter.py lines 104-154, 157-219, 277-362)

The generators are string templates; they are transcribed literally
(braces in the generated Python are written with `\x7b`/`\x7d`
escapes). -/

/-- The `{` character. -/
def openBrace : Char := '\x7b'

/-- The `}` character. -/
def closeBrace : Char := '\x7d'

/-- Fuel-based Python `str.replace` (all non-overlapping occurrences,
left to right). -/
def replaceAllF (pat rep : List Char) : Nat → List Char → List Char
  | 0, s => s
  | fuel + 1, s =>
    match splitOnFirst pat s with
    | none => s
    | some (b, a) => b ++ rep ++ replaceAllF pat rep fuel a

/-- Python `s.replace(pat, rep)`. -/
def replaceAll (pat rep s : List Char) : List Char :=
  replaceAllF pat rep (s.length + 1) s

/-- `', '.join(f'{p}: str' ...)` (converter.py lines 119, 303). -/
def paramList (params : List (List Char)) : List Char :=
  joinSep ", ".toList (params.map (fun p => p ++ ": str".toList))

/-- `'\n    '.join(f'{p}: Parameter for the command' ...)`
(converter.py lines 122, 304). -/
def paramDocs (params : List (List Char)) : List Char :=
  joinSep "\n    ".toList
    (params.map (fun p => p ++ ": Parameter for the command".toList))

/-- The fixed template text between the interpolated command string and
the wrapper's return line (shared by every generated wrapper). -/
def pyRunMid : List Char :=
  ("\"\n    result = subprocess.run(\n        command,\n        shell=True,\n        capture_output=True,\n        text=True\n    )\n    \n").toList

/-- The wrapper's fixed final line:
`return result.stdout if result.returncode == 0 else result.stderr`. -/
def pyReturnLine : List Char :=
  "    return result.stdout if result.returncode == 0 else result.stderr\n".toList

/-- The template tail after the interpolated command. -/
def pyRunTail : List Char := pyRunMid ++ pyReturnLine

/-- `generate_langchain_tool` (converter.py lines 104-154).  The
parameter substitution loop (line 127) replaces `{param}` by `{param}` —
a self-replacement, transcribed as such. -/
def generate_langchain_tool (tool_name command_template : List Char) :
    List Char :=
  let params := langchainParams command_template
  let command_str := params.foldl
    (fun cs p => replaceAll (openBrace :: (p ++ [closeBrace]))
      (openBrace :: (p ++ [closeBrace])) cs) command_template
  "\n@tool\ndef ".toList ++ tool_name
    ++ "(".toList ++ paramList params
    ++ ") -> str:\n    \"\"\"\n    Execute ".toList ++ tool_name
    ++ " command.\n    \n    Args:\n    ".toList ++ paramDocs params
    ++ "\n    \n    Returns:\n        Command output as string\n    \"\"\"\n    import subprocess\n    \n    command = f\"".toList
    ++ command_str ++ pyRunTail

/-- One wrapper of `generate_workflow_tools` (converter.py lines
291-360).  The `tool.get('description', ...)` default never fires for
specs built by the resolver, which always set a description. -/
def workflowToolCode (t : ToolSpec) : List Char :=
  let params := workflowParams t.command
  if params.isEmpty then
    "\n@tool\ndef ".toList ++ t.name ++ "() -> str:\n    \"\"\"\n    ".toList
      ++ t.description
      ++ "\n    \n    Returns:\n        Command output as string\n    \"\"\"\n    import subprocess\n    \n    command = \"".toList
      ++ t.command ++ pyRunTail
  else
    let command_str := params.foldl
      (fun cs p => replaceAll (openBrace :: (p ++ [closeBrace]))
        (openBrace :: (p ++ [closeBrace]))
        (replaceAll ('<' :: (p ++ ['>']))
          (openBrace :: (p ++ [closeBrace])) cs)) t.command
    "\n@tool\ndef ".toList ++ t.name ++ "(".toList ++ paramList params
      ++ ") -> str:\n    \"\"\"\n    ".toList ++ t.description
      ++ "\n    \n    Args:\n    ".toList ++ paramDocs params
      ++ "\n    \n    Returns:\n        Command output as string\n    \"\"\"\n    import subprocess\n    \n    command = f\"".toList
      ++ command_str ++ pyRunTail

/-- `generate_workflow_tools` (converter.py lines 277-362). -/
def generate_workflow_tools (tools_spec : List ToolSpec) : List Char :=
  joinSep "\n".toList (tools_spec.map workflowToolCode)

/-- The import preamble of `generate_agent_file`
(converter.py lines 175-180). -/
def pyImports : List Char :=
  "\nfrom langchain.agents import tool, AgentExecutor, create_react_agent\nfrom langchain.prompts import PromptTemplate\nfrom langchain_openai import ChatOpenAI\nimport subprocess\n".toList

/-- The epilogue text before the tool registry line. -/
def agentSetupPre : List Char :=
  "\n# Initialize LLM\nllm = ChatOpenAI(temperature=0)\n\n# Define tools\n".toList

/-- The opening of the registry line `tools = [...]`. -/
def registryOpen : List Char := "tools = [".toList

/-- The closing of the registry line: the `_get` suffix of the referenced
tool name plus the bracket. -/
def registryClose : List Char := "_get]".toList

/-- The epilogue text after the registry line, with the lower-cased
description interpolated (converter.py lines 198-217); `{{...}}` pairs of
the source f-string render as literal braces. -/
def agentSetupPost (description : List Char) : List Char :=
  "\n\n# Create agent prompt\nprompt = PromptTemplate.from_template(\"\"\"\nYou are a helpful assistant that can ".toList
    ++ pyLower description
    ++ ".\n\nAvailable tools: \x7btools\x7d\nTool names: \x7btool_names\x7d\n\nQuestion: \x7binput\x7d\nThought: \x7bagent_scratchpad\x7d\n\"\"\")\n\n# Create agent\nagent = create_react_agent(llm, tools, prompt)\nagent_executor = AgentExecutor(agent=agent, tools=tools, verbose=True)\n\n# Example usage\nif __name__ == \"__main__\":\n    result = agent_executor.invoke(\x7b\"input\": \"What\x27s the weather in London?\"\x7d)\n    print(result)\n".toList

/-- The agent-setup epilogue of `generate_agent_file`
(converter.py lines 191-217): the registry line
`tools = [{skill_name}_get]` is emitted unconditionally. -/
def agentSetup (skill_name description : List Char) : List Char :=
  agentSetupPre ++ registryOpen ++ skill_name ++ registryClose
    ++ agentSetupPost description

/-- The wrapper-generation loop of `generate_agent_file`
(converter.py lines 183-188): scan the first three commands in order and
generate one wrapper from the first containing `wttr.in`, then stop. -/
def wrapperSection (skill_name : List Char) (commands : List (List Char)) :
    List (List Char) :=
  match (commands.take 3).find? (fun c => containsSub "wttr.in".toList c) with
  | some c => [generate_langchain_tool (skill_name ++ "_get".toList) c]
  | none => []

/-- `generate_agent_file` (converter.py lines 157-219) on document text
(the `identify_skill_pattern` call of the source does not influence the
output and is omitted). -/
def generate_agent_file (content : List Char) : List Char :=
  let metadata := parse_skill_metadata content
  let commands := extract_tool_commands content
  let skill_name := dictGet "name".toList "unknown".toList metadata
  let description :=
    dictGet "description".toList "No description".toList metadata
  pyImports ++ joinSep "\n".toList (wrapperSection skill_name commands)
    ++ agentSetup skill_name description

/-! ### Claim C7 -/

/-- The subprocess result consumed by every generated wrapper body. -/
structure SubprocessResult where
  returncode : Int
  stdout : List Char
  stderr : List Char

/-- Denotation of the fixed wrapper body line
`return result.stdout if result.returncode == 0 else result.stderr`. -/
def wrapperReturn (r : SubprocessResult) : List Char :=
  if r.returncode = 0 then r.stdout else r.stderr

theorem exists_tail (A : List Char) :
    ∃ p, A ++ pyRunTail = p ++ pyReturnLine :=
  ⟨A ++ pyRunMid, by simp [pyRunTail, List.append_assoc]⟩

/-- C7: every emitted wrapper ends in the fixed body line that returns
the standard output verbatim on a zero exit code and the standard error
verbatim otherwise; the body's denotation is a total function (no
exception path exists for a non-zero exit). -/
theorem C7_wrapper_output :
    (∀ r : SubprocessResult,
        (r.returncode = 0 → wrapperReturn r = r.stdout)
        ∧ (r.returncode ≠ 0 → wrapperReturn r = r.stderr))
    ∧ (∀ tool_name command_template : List Char,
        ∃ p, generate_langchain_tool tool_name command_template
          = p ++ pyReturnLine)
    ∧ (∀ t : ToolSpec, ∃ p, workflowToolCode t = p ++ pyReturnLine) := by
  refine ⟨?_, ?_, ?_⟩
  · intro r
    constructor
    · intro h
      simp [wrapperReturn, h]
    · intro h
      simp [wrapperReturn, h]
  · intro tool_name command_template
    simp only [generate_langchain_tool]
    exact exists_tail _
  · intro t
    simp only [workflowToolCode]
    split
    · exact exists_tail _
    · exact exists_tail _

/-- Witness for C7: the body denotation at concrete succeeding and
failing results. -/
theorem C7_wrapper_output_witness :
    wrapperReturn ⟨0, "out".toList, "err".toList⟩ = "out".toList
    ∧ wrapperReturn ⟨1, "out".toList, "err".toList⟩ = "err".toList := by
  exact ⟨(C7_wrapper_output.1 ⟨0, "out".toList, "err".toList⟩).1 rfl,
    (C7_wrapper_output.1 ⟨1, "out".toList, "err".toList⟩).2 (by decide)⟩

/-! ### Claim C9 -/

/-- C9: the simple generation path emits a wrapper only when one of the
first three commands contains `wttr.in` — at most one wrapper, from the
first such command, named `{skillName}_get` — yet its epilogue emits the
registry line `tools = [{skillName}_get]` unconditionally, so without
such a command the output has zero wrapper definitions while the registry
still references `{skillName}_get`. -/
theorem C9_registry_unconditional :
    ∀ content : List Char,
      (∃ p q, generate_agent_file content
          = p ++ (registryOpen
              ++ dictGet "name".toList "unknown".toList
                  (parse_skill_metadata content)
              ++ registryClose) ++ q)
      ∧ ((∀ c ∈ (extract_tool_commands content).take 3,
            containsSub "wttr.in".toList c = false) →
          generate_agent_file content
            = pyImports ++ agentSetup
                (dictGet "name".toList "unknown".toList
                  (parse_skill_metadata content))
                (dictGet "description".toList "No description".toList
                  (parse_skill_metadata content)))
      ∧ (∀ c, ((extract_tool_commands content).take 3).find?
              (fun c => containsSub "wttr.in".toList c) = some c →
          generate_agent_file content
            = pyImports
              ++ generate_langchain_tool
                  (dictGet "name".toList "unknown".toList
                    (parse_skill_metadata content) ++ "_get".toList) c
              ++ agentSetup
                  (dictGet "name".toList "unknown".toList
                    (parse_skill_metadata content))
                  (dictGet "description".toList "No description".toList
                    (parse_skill_metadata content))) := by
  intro content
  refine ⟨?_, ?_, ?_⟩
  · refine ⟨pyImports
        ++ joinSep "\n".toList (wrapperSection
            (dictGet "name".toList "unknown".toList
              (parse_skill_metadata content))
            (extract_tool_commands content))
        ++ agentSetupPre,
      agentSetupPost (dictGet "description".toList "No description".toList
        (parse_skill_metadata content)), ?_⟩
    simp [generate_agent_file, agentSetup, List.append_assoc]
  · intro h
    have hf : ((extract_tool_commands content).take 3).find?
        (fun c => containsSub "wttr.in".toList c) = none := by
      rw [List.find?_eq_none]
      intro x hx
      simp only [h x hx]
      simp
    simp only [generate_agent_file, wrapperSection, hf, joinSep,
      List.append_nil]
  · intro c hc
    simp only [generate_agent_file, wrapperSection, hc, joinSep]

/-- Witness for C9: a document with no `wttr.in` command yields no
wrapper but still the dangling registry; a weather document yields
exactly the one `unknown_get` wrapper. -/
theorem C9_registry_unconditional_witness :
    generate_agent_file "hello".toList
      = pyImports ++ agentSetup "unknown".toList "No description".toList
    ∧ generate_agent_file "```bash\ncurl wttr.in/London\n```".toList
      = pyImports
        ++ generate_langchain_tool ("unknown".toList ++ "_get".toList)
            "curl wttr.in/London".toList
        ++ agentSetup "unknown".toList "No description".toList := by
  constructor
  · exact (C9_registry_unconditional "hello".toList).2.1 (by decide)
  · exact (C9_registry_unconditional
      "```bash\ncurl wttr.in/London\n```".toList).2.2
      "curl wttr.in/London".toList (by decide)

end SkillConv
